import Mathlib

/-!
Shallow embedding of the YUV420 semi-planar (NV21) to ARGB8888 converter in
src/package/android/src/main/cpp/yuv_to_rgb.cpp, together with proofs of the
specified properties.

Modelling conventions:
* Input bytes are a `List Nat`; the C expression `0xff & yuv[k]` (the jbyte is
  sign-extended, the mask recovers the unsigned byte value) is modelled by
  `byteAt`, which also applies the mask. An out-of-range read, undefined
  behavior in C, is modelled as reading byte 0.
* C `int` arithmetic is modelled on `Int` (unbounded); a separate theorem
  shows every intermediate value stays far inside the signed 32-bit range, so
  the unbounded model agrees with the 32-bit machine.
* The arithmetic right shift `r >> 10` on a (possibly negative) `int` is
  floor division by 1024, which is exactly Lean division on `Int` for a
  positive divisor.
* Output words are `Nat` values below 2 ^ 32 holding the bit pattern the C
  code stores into the jint array.
-/

namespace YuvToRgb

/-- Clamp a value to the range 0-255, exactly as the C helper
`(x < 0) ? 0 : ((x > 255) ? 255 : (uint8_t) x)`. -/
def clamp (x : Int) : Nat :=
  if x < 0 then 0 else if 255 < x then 255 else x.toNat

/-- Byte read `0xff & yuv[k]`; out of range (undefined behavior in C) reads 0. -/
def byteAt (yuv : List Nat) (k : Nat) : Nat := yuv.getD k 0 % 256

/-- Luma preprocessing of the loop body:
`int y = (0xff & yuv[yp]) - 16; if (y < 0) y = 0;`. -/
def lumaOf (b : Nat) : Int :=
  let y : Int := (b : Int) - 16
  if y < 0 then 0 else y

/-- Per-pixel arithmetic of the loop body, from the preprocessed luma `y` and
biased chroma `u`, `v`:
`int y1192 = 1192 * y;` the three channel sums, `(c >> 10) + 2` on each,
`clamp`, and the packed word `0xff000000 | (r << 16) | (g << 8) | b`. -/
def pixelWord (y u v : Int) : Nat :=
  let y1192 := 1192 * y
  let r := y1192 + 1634 * v
  let g := y1192 - 833 * v - 400 * u
  let b := y1192 + 2066 * u
  let r2 := clamp (r / 1024 + 2)
  let g2 := clamp (g / 1024 + 2)
  let b2 := clamp (b / 1024 + 2)
  0xff000000 ||| (r2 <<< 16) ||| (g2 <<< 8) ||| b2

/-- Inner loop over `x` in `[0, width)`. State: `yp` the luma cursor, `uvp`
the chroma cursor, `u` and `v` the biased chroma values reused at odd `x`.
At even `x` the code fetches `v = (0xff & yuv[uvp++]) - 128;
u = (0xff & yuv[uvp++]) - 128;`. The list collects the words the C code
stores at consecutive indices `rgb[yp]`. `rem` is the number of iterations
left, so the current column is `x` and `rem = width - x` at entry. -/
def innerLoop (yuv : List Nat) (yp uvp : Nat) (u v : Int) (x rem : Nat) :
    List Nat :=
  match rem with
  | 0 => []
  | rem' + 1 =>
    let y := lumaOf (byteAt yuv yp)
    if x % 2 = 0 then
      let v2 : Int := (byteAt yuv uvp : Int) - 128
      let u2 : Int := (byteAt yuv (uvp + 1) : Int) - 128
      pixelWord y u2 v2 :: innerLoop yuv (yp + 1) (uvp + 2) u2 v2 (x + 1) rem'
    else
      pixelWord y u v :: innerLoop yuv (yp + 1) uvp u v (x + 1) rem'

/-- Outer loop over luma rows `i in [0, height)`. Each row restarts the chroma
cursor at `frameSize + (i >> 1) * width` and resets `u = v = 0`; the luma
cursor `yp` is threaded across rows as in the C code. -/
def rowsLoop (yuv : List Nat) (width frameSize i yp rows : Nat) : List Nat :=
  match rows with
  | 0 => []
  | rows' + 1 =>
    innerLoop yuv yp (frameSize + i / 2 * width) 0 0 0 width
      ++ rowsLoop yuv width frameSize (i + 1) (yp + width) rows'

/-- The converter
`Java_com_mrousavy_camera_core_FaceDetectionRecorder_nativeYUV420toARGB8888`:
`frameSize = width * height`, `yp = 0`, rows `0 .. height`. The result list
holds the words written to `rgb[0], rgb[1], ...` in order. -/
def nativeYUV420toARGB8888 (yuv : List Nat) (width height : Nat) : List Nat :=
  rowsLoop yuv width (width * height) 0 0 height

/-- The word the converter produces for the pixel whose luma byte sits at
offset `ypos` when the active chroma pair sits at byte offset `coff` (the V
byte) and `coff + 1` (the U byte). -/
def pixelAt (yuv : List Nat) (ypos coff : Nat) : Nat :=
  pixelWord (lumaOf (byteAt yuv ypos)) ((byteAt yuv (coff + 1) : Int) - 128)
    ((byteAt yuv coff : Int) - 128)

/-- Validity of a frame: positive even dimensions and an input buffer of
exactly `width * height * 3 / 2` bytes. -/
def validFrame (yuv : List Nat) (width height : Nat) : Prop :=
  0 < width ∧ 0 < height ∧ width % 2 = 0 ∧ height % 2 = 0 ∧
    yuv.length * 2 = width * height * 3

/-- Common channel value of a pixel at neutral chroma (biased chroma
`u = v = 0`): each of the three channels reduces to
`clamp ((1192 * y >> 10) + 2)`. -/
def grayLevel (yB : Nat) : Nat := clamp (1192 * lumaOf yB / 1024 + 2)

/-! Unfolding lemmas for the loops. -/

theorem innerLoop_even (yuv : List Nat) (yp uvp : Nat) (u v : Int) (x n : Nat)
    (hx : x % 2 = 0) :
    innerLoop yuv yp uvp u v x (n + 1) =
      pixelWord (lumaOf (byteAt yuv yp)) ((byteAt yuv (uvp + 1) : Int) - 128)
          ((byteAt yuv uvp : Int) - 128) ::
        innerLoop yuv (yp + 1) (uvp + 2) ((byteAt yuv (uvp + 1) : Int) - 128)
          ((byteAt yuv uvp : Int) - 128) (x + 1) n := by
  simp [innerLoop, hx]

theorem innerLoop_odd (yuv : List Nat) (yp uvp : Nat) (u v : Int) (x n : Nat)
    (hx : x % 2 = 1) :
    innerLoop yuv yp uvp u v x (n + 1) =
      pixelWord (lumaOf (byteAt yuv yp)) u v ::
        innerLoop yuv (yp + 1) uvp u v (x + 1) n := by
  have hx0 : ¬ x % 2 = 0 := by omega
  simp [innerLoop, hx0]

theorem innerLoop_length (yuv : List Nat) :
    ∀ rem yp uvp u v x, (innerLoop yuv yp uvp u v x rem).length = rem := by
  intro rem
  induction rem with
  | zero => intro yp uvp u v x; rfl
  | succ n ih =>
    intro yp uvp u v x
    by_cases hx : x % 2 = 0
    · rw [innerLoop_even yuv yp uvp u v x n hx]
      simp [ih]
    · rw [innerLoop_odd yuv yp uvp u v x n (by omega)]
      simp [ih]

/-- Characterization of the inner loop: provided the chroma-cursor invariant
holds at entry (`uvp` points at the next unread chroma pair, and at odd `x`
the registers `u`, `v` hold the pair fetched at `x - 1`), pixel `k` of the
produced row is computed from the luma byte at `yp + k` and the chroma pair
at offset `base + 2 * ((x + k) / 2)`. -/
theorem innerLoop_getD (yuv : List Nat) (base : Nat) :
    ∀ rem x yp uvp u v,
      uvp = base + 2 * ((x + 1) / 2) →
      (x % 2 = 1 →
        v = (byteAt yuv (base + 2 * (x / 2)) : Int) - 128 ∧
        u = (byteAt yuv (base + 2 * (x / 2) + 1) : Int) - 128) →
      ∀ k, k < rem →
        (innerLoop yuv yp uvp u v x rem).getD k 0 =
          pixelAt yuv (yp + k) (base + 2 * ((x + k) / 2)) := by
  intro rem
  induction rem with
  | zero => intro x yp uvp u v _ _ k hk; omega
  | succ n ih =>
    intro x yp uvp u v huvp hodd k hk
    by_cases hx : x % 2 = 0
    · have huvp' : uvp = base + x := by omega
      rw [innerLoop_even yuv yp uvp u v x n hx]
      cases k with
      | zero =>
        have hc : base + 2 * (x / 2) = uvp := by omega
        simp only [List.getD_cons_zero, Nat.add_zero, pixelAt, hc]
      | succ k' =>
        simp only [List.getD_cons_succ]
        have h1 : uvp + 2 = base + 2 * ((x + 1 + 1) / 2) := by omega
        have h2 : (x + 1) % 2 = 1 →
            ((byteAt yuv uvp : Int) - 128 =
              (byteAt yuv (base + 2 * ((x + 1) / 2)) : Int) - 128 ∧
             (byteAt yuv (uvp + 1) : Int) - 128 =
              (byteAt yuv (base + 2 * ((x + 1) / 2) + 1) : Int) - 128) := by
          intro _
          constructor
          · have : base + 2 * ((x + 1) / 2) = uvp := by omega
            rw [this]
          · have : base + 2 * ((x + 1) / 2) + 1 = uvp + 1 := by omega
            rw [this]
        have := ih (x + 1) (yp + 1) (uvp + 2)
          ((byteAt yuv (uvp + 1) : Int) - 128) ((byteAt yuv uvp : Int) - 128)
          h1 h2 k' (by omega)
        rw [this]
        have e1 : yp + 1 + k' = yp + (k' + 1) := by omega
        have e2 : x + 1 + k' = x + (k' + 1) := by omega
        rw [e1, e2]
    · have hx1 : x % 2 = 1 := by omega
      obtain ⟨hv, hu⟩ := hodd hx1
      rw [innerLoop_odd yuv yp uvp u v x n hx1]
      cases k with
      | zero =>
        simp only [List.getD_cons_zero, Nat.add_zero, pixelAt, hv, hu]
      | succ k' =>
        simp only [List.getD_cons_succ]
        have h1 : uvp = base + 2 * ((x + 1 + 1) / 2) := by omega
        have h2 : (x + 1) % 2 = 1 → (v =
              (byteAt yuv (base + 2 * ((x + 1) / 2)) : Int) - 128 ∧
            u = (byteAt yuv (base + 2 * ((x + 1) / 2) + 1) : Int) - 128) := by
          intro h
          omega
        have := ih (x + 1) (yp + 1) uvp u v h1 h2 k' (by omega)
        rw [this]
        have e1 : yp + 1 + k' = yp + (k' + 1) := by omega
        have e2 : x + 1 + k' = x + (k' + 1) := by omega
        rw [e1, e2]

theorem rowsLoop_succ (yuv : List Nat) (width fs i yp n : Nat) :
    rowsLoop yuv width fs i yp (n + 1) =
      innerLoop yuv yp (fs + i / 2 * width) 0 0 0 width
        ++ rowsLoop yuv width fs (i + 1) (yp + width) n := rfl

/-- Characterization of the outer loop: pixel `(j, x)` of the remaining rows
(row index `i + j` in the full frame, luma cursor starting at `yp`) is
computed from the luma byte at `yp + j * width + x` and the chroma pair at
offset `fs + ((i + j) / 2) * width + 2 * (x / 2)`. -/
theorem rowsLoop_getD (yuv : List Nat) (width fs : Nat) :
    ∀ rows i yp j x, j < rows → x < width →
      (rowsLoop yuv width fs i yp rows).getD (j * width + x) 0 =
        pixelAt yuv (yp + j * width + x)
          (fs + (i + j) / 2 * width + 2 * (x / 2)) := by
  intro rows
  induction rows with
  | zero => intro i yp j x hj hx; omega
  | succ n ih =>
    intro i yp j x hj hx
    rw [rowsLoop_succ]
    cases j with
    | zero =>
      simp only [Nat.zero_mul, Nat.zero_add, Nat.add_zero]
      rw [List.getD_append _ _ _ _ (by rw [innerLoop_length]; exact hx)]
      have h := innerLoop_getD yuv (fs + i / 2 * width) width 0 yp
        (fs + i / 2 * width) 0 0 (by omega)
        (fun h => absurd h (by decide)) x hx
      rw [h]
      simp
    | succ j' =>
      simp only [Nat.succ_eq_add_one, add_one_mul]
      rw [List.getD_append_right _ _ _ _ (by rw [innerLoop_length]; omega)]
      rw [innerLoop_length]
      rw [show j' * width + width + x - width = j' * width + x from by omega]
      rw [ih (i + 1) (yp + width) j' x (by omega) hx]
      rw [show yp + width + j' * width + x = yp + (j' * width + width) + x
        from by omega]
      rw [show i + 1 + j' = i + (j' + 1) from by omega]

/-- Per-pixel characterization of the converter: for a pixel in range, the
output word at index `i * width + x` is computed from the luma byte at the
same index and the chroma pair at offset
`width * height + (i >> 1) * width + 2 * (x >> 1)`. -/
theorem convert_getD (yuv : List Nat) (width height i x : Nat)
    (hi : i < height) (hx : x < width) :
    (nativeYUV420toARGB8888 yuv width height).getD (i * width + x) 0 =
      pixelAt yuv (i * width + x)
        (width * height + i / 2 * width + 2 * (x / 2)) := by
  have h := rowsLoop_getD yuv width (width * height) height 0 0 i x hi hx
  simpa [nativeYUV420toARGB8888] using h

/-! Structure of the packed word. -/

theorem clamp_le (x : Int) : clamp x ≤ 255 := by
  unfold clamp
  split
  · omega
  · split
    · omega
    · omega

/-- The packed word with the three channel fields made arithmetic: the
clamped channels are below 256, so the bitwise ors combine disjoint bit
fields and coincide with plain addition. -/
theorem pixelWord_eq (y u v : Int) :
    pixelWord y u v =
      0xff000000 + 65536 * clamp ((1192 * y + 1634 * v) / 1024 + 2) +
        256 * clamp ((1192 * y - 833 * v - 400 * u) / 1024 + 2) +
        clamp ((1192 * y + 2066 * u) / 1024 + 2) := by
  simp only [pixelWord]
  have hr := clamp_le ((1192 * y + 1634 * v) / 1024 + 2)
  have hg := clamp_le ((1192 * y - 833 * v - 400 * u) / 1024 + 2)
  have hb := clamp_le ((1192 * y + 2066 * u) / 1024 + 2)
  set R := clamp ((1192 * y + 1634 * v) / 1024 + 2) with hR
  set G := clamp ((1192 * y - 833 * v - 400 * u) / 1024 + 2) with hG
  set B := clamp ((1192 * y + 2066 * u) / 1024 + 2) with hB
  rw [Nat.or_assoc, Nat.or_assoc, Nat.shiftLeft_eq, Nat.shiftLeft_eq,
    Nat.mul_comm R (2 ^ 16), Nat.mul_comm G (2 ^ 8),
    ← Nat.mul_add_lt_is_or (show B < 2 ^ 8 from by omega) G,
    ← Nat.mul_add_lt_is_or (show 2 ^ 8 * G + B < 2 ^ 16 from by omega) R,
    show (0xff000000 : Nat) = 2 ^ 24 * 255 from by norm_num,
    ← Nat.mul_add_lt_is_or
      (show 2 ^ 16 * R + (2 ^ 8 * G + B) < 2 ^ 24 from by omega) 255]
  omega

/-- Alpha byte of a word packed from channels below 256. -/
theorem word_alpha (r g b : Nat) (hr : r ≤ 255) (hg : g ≤ 255)
    (hb : b ≤ 255) :
    ((0xff000000 + 65536 * r + 256 * g + b) >>> 24) &&& 255 = 255 := by
  rw [Nat.shiftRight_eq_div_pow,
    show (0xff000000 + 65536 * r + 256 * g + b) / 2 ^ 24 = 255 from by omega]
  rfl

/-- Red field of a word packed from channels below 256. -/
theorem word_chanR (r g b : Nat) (hr : r ≤ 255) (hg : g ≤ 255)
    (hb : b ≤ 255) :
    ((0xff000000 + 65536 * r + 256 * g + b) >>> 16) &&& 255 = r := by
  rw [Nat.shiftRight_eq_div_pow,
    show (0xff000000 + 65536 * r + 256 * g + b) / 2 ^ 16 = 65280 + r
      from by omega,
    show (255 : Nat) = 2 ^ 8 - 1 from by norm_num,
    Nat.and_pow_two_sub_one_eq_mod]
  omega

/-- Green field of a word packed from channels below 256. -/
theorem word_chanG (r g b : Nat) (hr : r ≤ 255) (hg : g ≤ 255)
    (hb : b ≤ 255) :
    ((0xff000000 + 65536 * r + 256 * g + b) >>> 8) &&& 255 = g := by
  rw [Nat.shiftRight_eq_div_pow,
    show (0xff000000 + 65536 * r + 256 * g + b) / 2 ^ 8 =
      16711680 + 256 * r + g from by omega,
    show (255 : Nat) = 2 ^ 8 - 1 from by norm_num,
    Nat.and_pow_two_sub_one_eq_mod]
  omega

/-- Blue field of a word packed from channels below 256. -/
theorem word_chanB (r g b : Nat) (hr : r ≤ 255) (hg : g ≤ 255)
    (hb : b ≤ 255) :
    (0xff000000 + 65536 * r + 256 * g + b) &&& 255 = b := by
  rw [show (255 : Nat) = 2 ^ 8 - 1 from by norm_num,
    Nat.and_pow_two_sub_one_eq_mod]
  omega

/-! Every emitted word is a packed pixel word. -/

theorem innerLoop_mem (yuv : List Nat) :
    ∀ rem yp uvp u v x w, w ∈ innerLoop yuv yp uvp u v x rem →
      ∃ a c d, w = pixelWord a c d := by
  intro rem
  induction rem with
  | zero => intro yp uvp u v x w h; simp [innerLoop] at h
  | succ n ih =>
    intro yp uvp u v x w h
    by_cases hx : x % 2 = 0
    · rw [innerLoop_even yuv yp uvp u v x n hx] at h
      rcases List.mem_cons.mp h with h | h
      · exact ⟨_, _, _, h⟩
      · exact ih _ _ _ _ _ _ h
    · rw [innerLoop_odd yuv yp uvp u v x n (by omega)] at h
      rcases List.mem_cons.mp h with h | h
      · exact ⟨_, _, _, h⟩
      · exact ih _ _ _ _ _ _ h

theorem rowsLoop_mem (yuv : List Nat) (width fs : Nat) :
    ∀ rows i yp w, w ∈ rowsLoop yuv width fs i yp rows →
      ∃ a c d, w = pixelWord a c d := by
  intro rows
  induction rows with
  | zero => intro i yp w h; simp [rowsLoop] at h
  | succ n ih =>
    intro i yp w h
    rw [rowsLoop_succ] at h
    rcases List.mem_append.mp h with h | h
    · exact innerLoop_mem yuv _ _ _ _ _ _ _ h
    · exact ih _ _ _ h

theorem pixelWord_alpha (y u v : Int) :
    (pixelWord y u v >>> 24) &&& 255 = 255 := by
  rw [pixelWord_eq]
  exact word_alpha _ _ _ (clamp_le _) (clamp_le _) (clamp_le _)

/-! Arithmetic helpers. -/

theorem lumaOf_eq_max (b : Nat) : lumaOf b = max 0 ((b : Int) - 16) := by
  simp only [lumaOf]
  split <;> omega

theorem lumaOf_mono {a b : Nat} (h : a ≤ b) : lumaOf a ≤ lumaOf b := by
  simp only [lumaOf]
  split_ifs <;> omega

theorem clamp_mono {a b : Int} (h : a ≤ b) : clamp a ≤ clamp b := by
  unfold clamp
  split_ifs <;> omega

theorem grayLevel_mono {a b : Nat} (h : a ≤ b) : grayLevel a ≤ grayLevel b := by
  unfold grayLevel
  refine clamp_mono ?_
  have h1 : 1192 * lumaOf a ≤ 1192 * lumaOf b := by
    have := lumaOf_mono h; omega
  have h2 := Int.ediv_le_ediv (c := 1024) (by decide) h1
  omega

/-! Index bounds inside a valid frame. -/

theorem luma_idx_lt (width height i x : Nat) (hi : i < height)
    (hx : x < width) : i * width + x < width * height := by
  have h1 : (i + 1) * width ≤ height * width :=
    Nat.mul_le_mul_right width (by omega)
  have h2 := Nat.add_one_mul i width
  have h3 := Nat.mul_comm width height
  omega

theorem chroma_off_lt (width height i x : Nat) (hw2 : width % 2 = 0)
    (hh2 : height % 2 = 0) (hi : i < height) (hx : x < width) :
    i / 2 * width + 2 * (x / 2) + 1 < width * height / 2 := by
  have h2 : 2 ∣ height := by omega
  have e : width * height / 2 = height / 2 * width := by
    rw [Nat.mul_div_assoc width h2]; ring
  rw [e]
  have h3 : (i / 2 + 1) * width ≤ height / 2 * width :=
    Nat.mul_le_mul_right width (by omega)
  have h4 : 2 * (x / 2) + 1 < width := by omega
  have h5 := Nat.add_one_mul (i / 2) width
  omega

theorem getD_replicate (a n k : Nat) (h : k < n) :
    (List.replicate n a).getD k 0 = a := by
  rw [List.getD_eq_getElem _ _ (by simpa using h)]
  simp

/-! Reads from a uniform frame (constant luma plane, constant chroma plane). -/

theorem byteAt_uniform_luma (width height yB cB k : Nat)
    (h : k < width * height) :
    byteAt (List.replicate (width * height) yB ++
      List.replicate (width * height / 2) cB) k = yB % 256 := by
  unfold byteAt
  rw [List.getD_append _ _ _ _ (by simpa using h), getD_replicate yB _ _ h]

theorem byteAt_uniform_chroma (width height yB cB k : Nat)
    (h : k < width * height / 2) :
    byteAt (List.replicate (width * height) yB ++
      List.replicate (width * height / 2) cB) (width * height + k) =
      cB % 256 := by
  unfold byteAt
  rw [List.getD_append_right _ _ _ _ (by simp)]
  simp only [List.length_replicate]
  rw [show width * height + k - width * height = k from by omega,
    getD_replicate cB _ _ h]

/-! The claims. -/

/-- Claim C5: for every signed integer x, the clamp helper returns x when
0 <= x <= 255, returns 0 when x < 0, and returns 255 when x > 255 — exact
saturation to the endpoints of [0, 255], never modular wrap. -/
theorem clamp_saturates (x : Int) :
    (0 ≤ x → x ≤ 255 → (clamp x : Int) = x) ∧
    (x < 0 → clamp x = 0) ∧ (255 < x → clamp x = 255) := by
  unfold clamp
  refine ⟨fun h1 h2 => ?_, fun h => ?_, fun h => ?_⟩
  · rw [if_neg (by omega), if_neg (by omega)]
    omega
  · rw [if_pos h]
  · rw [if_neg (by omega), if_pos h]

theorem clamp_saturates_witness :
    (clamp 100 : Int) = 100 ∧ clamp (-7) = 0 ∧ clamp 300 = 255 :=
  ⟨(clamp_saturates 100).1 (by decide) (by decide),
   (clamp_saturates (-7)).2.1 (by decide),
   (clamp_saturates 300).2.2 (by decide)⟩

/-- Claim C4: for every valid input frame, every word the converter emits
has alpha byte 0xFF: (w >>> 24) &&& 0xFF = 0xFF. -/
theorem alpha_constancy (yuv : List Nat) (width height : Nat)
    (hv : validFrame yuv width height) (w : Nat)
    (hw : w ∈ nativeYUV420toARGB8888 yuv width height) :
    (w >>> 24) &&& 0xFF = 0xFF := by
  obtain ⟨a, c, d, rfl⟩ :=
    rowsLoop_mem yuv width (width * height) height 0 0 w hw
  exact pixelWord_alpha a c d

theorem alpha_constancy_witness :
    ((0xff020202 : Nat) >>> 24) &&& 0xFF = 0xFF :=
  alpha_constancy [16, 16, 16, 16, 128, 128] 2 2
    ⟨by decide, by decide, by decide, by decide, by decide⟩
    0xff020202 (by decide)

/-- Claim C1: for every pixel of a valid frame, with Y the luma byte at the
pixel, V and U the chroma bytes of its 2x2 block (V first), and
yq = max(0, Y - 16), uq = U - 128, vq = V - 128, the converter computes
1192*yq + 1634*vq, 1192*yq - 833*vq - 400*uq and 1192*yq + 2066*uq,
arithmetically right-shifts each by 10 bits (floor division by 1024), adds
the rounding bias 2, clamps with the clamp helper, and emits
0xFF000000 | (R << 16) | (G << 8) | B. -/
theorem per_pixel_arithmetic (yuv : List Nat) (width height : Nat)
    (hv : validFrame yuv width height) (i x : Nat)
    (hi : i < height) (hx : x < width) :
    (nativeYUV420toARGB8888 yuv width height).getD (i * width + x) 0 =
      0xff000000 |||
        (clamp ((1192 * max 0 ((byteAt yuv (i * width + x) : Int) - 16) +
            1634 * ((byteAt yuv
              (width * height + i / 2 * width + 2 * (x / 2)) : Int) - 128)) /
            1024 + 2) <<< 16) |||
        (clamp ((1192 * max 0 ((byteAt yuv (i * width + x) : Int) - 16) -
            833 * ((byteAt yuv
              (width * height + i / 2 * width + 2 * (x / 2)) : Int) - 128) -
            400 * ((byteAt yuv
              (width * height + i / 2 * width + 2 * (x / 2) + 1) : Int) -
              128)) / 1024 + 2) <<< 8) |||
        clamp ((1192 * max 0 ((byteAt yuv (i * width + x) : Int) - 16) +
            2066 * ((byteAt yuv
              (width * height + i / 2 * width + 2 * (x / 2) + 1) : Int) -
              128)) / 1024 + 2) := by
  rw [convert_getD yuv width height i x hi hx]
  simp only [pixelAt, pixelWord, lumaOf_eq_max]

theorem per_pixel_arithmetic_witness :
    (nativeYUV420toARGB8888 [16, 16, 16, 16, 128, 128] 2 2).getD
        (0 * 2 + 0) 0 =
      0xff000000 |||
        (clamp ((1192 * max 0 ((byteAt [16, 16, 16, 16, 128, 128]
            (0 * 2 + 0) : Int) - 16) +
            1634 * ((byteAt [16, 16, 16, 16, 128, 128]
              (2 * 2 + 0 / 2 * 2 + 2 * (0 / 2)) : Int) - 128)) /
            1024 + 2) <<< 16) |||
        (clamp ((1192 * max 0 ((byteAt [16, 16, 16, 16, 128, 128]
            (0 * 2 + 0) : Int) - 16) -
            833 * ((byteAt [16, 16, 16, 16, 128, 128]
              (2 * 2 + 0 / 2 * 2 + 2 * (0 / 2)) : Int) - 128) -
            400 * ((byteAt [16, 16, 16, 16, 128, 128]
              (2 * 2 + 0 / 2 * 2 + 2 * (0 / 2) + 1) : Int) -
              128)) / 1024 + 2) <<< 8) |||
        clamp ((1192 * max 0 ((byteAt [16, 16, 16, 16, 128, 128]
            (0 * 2 + 0) : Int) - 16) +
            2066 * ((byteAt [16, 16, 16, 16, 128, 128]
              (2 * 2 + 0 / 2 * 2 + 2 * (0 / 2) + 1) : Int) -
              128)) / 1024 + 2) :=
  per_pixel_arithmetic [16, 16, 16, 16, 128, 128] 2 2
    ⟨by decide, by decide, by decide, by decide, by decide⟩ 0 0
    (by decide) (by decide)

/-- Claim C9: for byte-valued samples, none of the per-pixel intermediates
(1192*yq, the three pre-clamp channel sums, the shift-plus-2 results)
leaves the signed 32-bit range, and the packed word (computed with
unsigned bitwise or in the C code) fits in 32 bits. -/
theorem no_overflow (yB uB vB : Nat) (hy : yB < 256) (hu : uB < 256)
    (hvb : vB < 256) :
    (1192 * lumaOf yB).natAbs < 2 ^ 31 ∧
    (1192 * lumaOf yB + 1634 * ((vB : Int) - 128)).natAbs < 2 ^ 31 ∧
    (1192 * lumaOf yB - 833 * ((vB : Int) - 128) -
      400 * ((uB : Int) - 128)).natAbs < 2 ^ 31 ∧
    (1192 * lumaOf yB + 2066 * ((uB : Int) - 128)).natAbs < 2 ^ 31 ∧
    ((1192 * lumaOf yB + 1634 * ((vB : Int) - 128)) / 1024 + 2).natAbs
      < 2 ^ 31 ∧
    ((1192 * lumaOf yB - 833 * ((vB : Int) - 128) -
      400 * ((uB : Int) - 128)) / 1024 + 2).natAbs < 2 ^ 31 ∧
    ((1192 * lumaOf yB + 2066 * ((uB : Int) - 128)) / 1024 + 2).natAbs
      < 2 ^ 31 ∧
    pixelWord (lumaOf yB) ((uB : Int) - 128) ((vB : Int) - 128) < 2 ^ 32 := by
  have hl : 0 ≤ lumaOf yB ∧ lumaOf yB ≤ 239 := by
    simp only [lumaOf]; split <;> omega
  refine ⟨by omega, by omega, by omega, by omega, by omega, by omega,
    by omega, ?_⟩
  rw [pixelWord_eq]
  have h1 := clamp_le ((1192 * lumaOf yB + 1634 * ((vB : Int) - 128)) /
    1024 + 2)
  have h2 := clamp_le ((1192 * lumaOf yB - 833 * ((vB : Int) - 128) -
    400 * ((uB : Int) - 128)) / 1024 + 2)
  have h3 := clamp_le ((1192 * lumaOf yB + 2066 * ((uB : Int) - 128)) /
    1024 + 2)
  omega

theorem no_overflow_witness :
    pixelWord (lumaOf 235) (((128 : Nat) : Int) - 128)
      (((128 : Nat) : Int) - 128) < 2 ^ 32 :=
  (no_overflow 235 128 128 (by decide) (by decide)
    (by decide)).2.2.2.2.2.2.2

/-- Claim C3 fails as stated: on the uniform black 2x2 frame
yuv = [16,16,16,16,128,128] every output word is 0xFF020202 — every channel
equals 2 because of the post-shift +2 bias — not 0xFF000000, and a channel
value of 2 is outside the stated tolerance of 1. -/
theorem uniform_black_counterexample :
    nativeYUV420toARGB8888 [16, 16, 16, 16, 128, 128] 2 2 ≠
      [0xff000000, 0xff000000, 0xff000000, 0xff000000] ∧
    ((nativeYUV420toARGB8888 [16, 16, 16, 16, 128, 128] 2 2).getD 0 0
      >>> 16) &&& 255 = 2 := by decide

/-- Claim C3 amended: on the 2x2 frame yuv = [16,16,16,16,128,128] every
output word equals 0xFF020202 (each channel is 2, within 2 of 0 per
channel); more generally, a uniform Y=16, U=V=128 frame of any valid size
maps each pixel to 0xFF020202. -/
theorem uniform_black (width height : Nat) (hw : 0 < width)
    (hh : 0 < height) (hw2 : width % 2 = 0) (hh2 : height % 2 = 0)
    (i x : Nat) (hi : i < height) (hx : x < width) :
    nativeYUV420toARGB8888 [16, 16, 16, 16, 128, 128] 2 2 =
      [0xff020202, 0xff020202, 0xff020202, 0xff020202] ∧
    (nativeYUV420toARGB8888
        (List.replicate (width * height) 16 ++
          List.replicate (width * height / 2) 128) width height).getD
      (i * width + x) 0 = 0xff020202 := by
  refine ⟨by decide, ?_⟩
  rw [convert_getD _ width height i x hi hx]
  unfold pixelAt
  rw [byteAt_uniform_luma width height 16 128 _
    (luma_idx_lt width height i x hi hx)]
  rw [show width * height + i / 2 * width + 2 * (x / 2) + 1 =
    width * height + (i / 2 * width + 2 * (x / 2) + 1) from by omega]
  rw [byteAt_uniform_chroma width height 16 128 _
    (chroma_off_lt width height i x hw2 hh2 hi hx)]
  rw [show width * height + i / 2 * width + 2 * (x / 2) =
    width * height + (i / 2 * width + 2 * (x / 2)) from by omega]
  rw [byteAt_uniform_chroma width height 16 128 _
    (by have := chroma_off_lt width height i x hw2 hh2 hi hx; omega)]
  decide

theorem uniform_black_witness :
    (nativeYUV420toARGB8888
        (List.replicate (2 * 2) 16 ++ List.replicate (2 * 2 / 2) 128)
        2 2).getD (0 * 2 + 0) 0 = 0xff020202 :=
  (uniform_black 2 2 (by decide) (by decide) (by decide) (by decide) 0 0
    (by decide) (by decide)).2

/-- Claim C7 fails in its final identification: on the 2x2 frame
yuv = [0,0,0,0,128,128] the outputs do equal the Y=16 outputs, but that
common value is 0xFF020202, not 0xFF000000. -/
theorem below_pedestal_counterexample :
    nativeYUV420toARGB8888 [0, 0, 0, 0, 128, 128] 2 2 ≠
      [0xff000000, 0xff000000, 0xff000000, 0xff000000] := by decide

/-- Claim C7 amended: on the 2x2 frame yuv = [0,0,0,0,128,128] each luma
value below the pedestal is clamped to 0 before the matrix, so each output
word equals the corresponding output for the Y=16 input — i.e. 0xFF020202. -/
theorem below_pedestal :
    nativeYUV420toARGB8888 [0, 0, 0, 0, 128, 128] 2 2 =
      nativeYUV420toARGB8888 [16, 16, 16, 16, 128, 128] 2 2 ∧
    nativeYUV420toARGB8888 [0, 0, 0, 0, 128, 128] 2 2 =
      [0xff020202, 0xff020202, 0xff020202, 0xff020202] := by decide

/-- Claim C8: the converter performs no validation at all. Fed an invalid
frame — five input bytes where a 2x2 frame needs six — it does not fail
before writing: it still produces all four output words, reading past the
end of the buffer (modelled here as reading byte 0). -/
theorem no_precondition_check :
    ¬ validFrame [16, 16, 16, 16, 128] 2 2 ∧
    (nativeYUV420toARGB8888 [16, 16, 16, 16, 128] 2 2).length = 4 := by
  unfold validFrame
  decide

/-- Claim C2: for every valid frame and chroma block coordinate (c, r), the
four output pixels of the 2x2 luma block are all computed from the same
chroma pair, the one at byte offset width*height + r*width + 2c: the V
sample is the byte at that offset and the U sample the byte right after it
(pixelAt reads the V byte at its second argument and the U byte at the
following offset). -/
theorem chroma_sharing (yuv : List Nat) (width height : Nat)
    (hv : validFrame yuv width height) (c r : Nat)
    (hc : c < width / 2) (hr : r < height / 2) :
    (nativeYUV420toARGB8888 yuv width height).getD
        (2 * r * width + 2 * c) 0 =
      pixelAt yuv (2 * r * width + 2 * c)
        (width * height + r * width + 2 * c) ∧
    (nativeYUV420toARGB8888 yuv width height).getD
        (2 * r * width + (2 * c + 1)) 0 =
      pixelAt yuv (2 * r * width + (2 * c + 1))
        (width * height + r * width + 2 * c) ∧
    (nativeYUV420toARGB8888 yuv width height).getD
        ((2 * r + 1) * width + 2 * c) 0 =
      pixelAt yuv ((2 * r + 1) * width + 2 * c)
        (width * height + r * width + 2 * c) ∧
    (nativeYUV420toARGB8888 yuv width height).getD
        ((2 * r + 1) * width + (2 * c + 1)) 0 =
      pixelAt yuv ((2 * r + 1) * width + (2 * c + 1))
        (width * height + r * width + 2 * c) := by
  obtain ⟨hw, hh, hw2, hh2, hlen⟩ := hv
  have hi1 : 2 * r < height := by omega
  have hi2 : 2 * r + 1 < height := by omega
  have hx1 : 2 * c < width := by omega
  have hx2 : 2 * c + 1 < width := by omega
  refine ⟨?_, ?_, ?_, ?_⟩
  · rw [convert_getD yuv width height (2 * r) (2 * c) hi1 hx1,
      show 2 * r / 2 = r from by omega, show 2 * c / 2 = c from by omega]
  · rw [convert_getD yuv width height (2 * r) (2 * c + 1) hi1 hx2,
      show 2 * r / 2 = r from by omega,
      show (2 * c + 1) / 2 = c from by omega]
  · rw [convert_getD yuv width height (2 * r + 1) (2 * c) hi2 hx1,
      show (2 * r + 1) / 2 = r from by omega,
      show 2 * c / 2 = c from by omega]
  · rw [convert_getD yuv width height (2 * r + 1) (2 * c + 1) hi2 hx2,
      show (2 * r + 1) / 2 = r from by omega,
      show (2 * c + 1) / 2 = c from by omega]

theorem chroma_sharing_witness :
    (nativeYUV420toARGB8888 [16, 235, 235, 16, 128, 128] 2 2).getD
        (2 * 0 * 2 + 2 * 0) 0 =
      pixelAt [16, 235, 235, 16, 128, 128] (2 * 0 * 2 + 2 * 0)
        (2 * 2 + 0 * 2 + 2 * 0) :=
  (chroma_sharing [16, 235, 235, 16, 128, 128] 2 2
    ⟨by decide, by decide, by decide, by decide, by decide⟩ 0 0
    (by decide) (by decide)).1

/-- Claim C10: per-pixel locality — the output word at index i*width + x
depends only on the luma byte at that index and the two chroma bytes of
its 2x2 block; two inputs agreeing on those three bytes produce the same
word there. -/
theorem per_pixel_locality (yuv1 yuv2 : List Nat) (width height : Nat)
    (hv1 : validFrame yuv1 width height)
    (hv2 : validFrame yuv2 width height) (i x : Nat)
    (hi : i < height) (hx : x < width)
    (hY : yuv1.getD (i * width + x) 0 = yuv2.getD (i * width + x) 0)
    (hV : yuv1.getD (width * height + i / 2 * width + 2 * (x / 2)) 0 =
      yuv2.getD (width * height + i / 2 * width + 2 * (x / 2)) 0)
    (hU : yuv1.getD (width * height + i / 2 * width + 2 * (x / 2) + 1) 0 =
      yuv2.getD (width * height + i / 2 * width + 2 * (x / 2) + 1) 0) :
    (nativeYUV420toARGB8888 yuv1 width height).getD (i * width + x) 0 =
      (nativeYUV420toARGB8888 yuv2 width height).getD (i * width + x) 0 := by
  rw [convert_getD yuv1 width height i x hi hx,
    convert_getD yuv2 width height i x hi hx]
  unfold pixelAt byteAt
  rw [hY, hV, hU]

theorem per_pixel_locality_witness :
    (nativeYUV420toARGB8888 [16, 0, 0, 0, 128, 128] 2 2).getD
        (0 * 2 + 0) 0 =
      (nativeYUV420toARGB8888 [16, 200, 201, 202, 128, 128] 2 2).getD
        (0 * 2 + 0) 0 :=
  per_pixel_locality [16, 0, 0, 0, 128, 128]
    [16, 200, 201, 202, 128, 128] 2 2
    ⟨by decide, by decide, by decide, by decide, by decide⟩
    ⟨by decide, by decide, by decide, by decide, by decide⟩ 0 0
    (by decide) (by decide) (by decide) (by decide) (by decide)

/-- Claim C6: on a frame whose chroma plane is uniformly 128 and whose luma
bytes lie in [16, 235], every output word has R = G = B (a common value,
the grayLevel of the luma byte), and that common channel value is
monotonically non-decreasing in Y. -/
theorem gray_axis (yuv : List Nat) (width height : Nat)
    (hv : validFrame yuv width height)
    (hchroma : ∀ k, width * height ≤ k → k < yuv.length →
      yuv.getD k 0 = 128)
    (hluma : ∀ k, k < width * height →
      16 ≤ yuv.getD k 0 ∧ yuv.getD k 0 ≤ 235)
    (i x : Nat) (hi : i < height) (hx : x < width) :
    (((nativeYUV420toARGB8888 yuv width height).getD (i * width + x) 0
        >>> 16) &&& 255 = grayLevel (byteAt yuv (i * width + x)) ∧
      ((nativeYUV420toARGB8888 yuv width height).getD (i * width + x) 0
        >>> 8) &&& 255 = grayLevel (byteAt yuv (i * width + x)) ∧
      (nativeYUV420toARGB8888 yuv width height).getD (i * width + x) 0
        &&& 255 = grayLevel (byteAt yuv (i * width + x))) ∧
    (∀ a b : Nat, 16 ≤ a → a ≤ b → b ≤ 235 →
      grayLevel a ≤ grayLevel b) := by
  obtain ⟨hw, hh, hw2, hh2, hlen⟩ := hv
  have hC := chroma_off_lt width height i x hw2 hh2 hi hx
  have hA : width * height % 2 = 0 := by
    rw [Nat.mul_mod, hw2]
    simp
  have hcv : yuv.getD (width * height + i / 2 * width + 2 * (x / 2)) 0 =
      128 := hchroma _ (by omega) (by omega)
  have hcu : yuv.getD
      (width * height + i / 2 * width + 2 * (x / 2) + 1) 0 = 128 :=
    hchroma _ (by omega) (by omega)
  have hbv : byteAt yuv (width * height + i / 2 * width + 2 * (x / 2)) =
      128 := by unfold byteAt; rw [hcv]
  have hbu : byteAt yuv
      (width * height + i / 2 * width + 2 * (x / 2) + 1) = 128 := by
    unfold byteAt; rw [hcu]
  constructor
  · rw [convert_getD yuv width height i x hi hx]
    unfold pixelAt
    rw [hbv, hbu, show ((128 : Nat) : Int) - 128 = 0 from by decide,
      pixelWord_eq]
    simp only [mul_zero, add_zero, sub_zero]
    unfold grayLevel
    exact ⟨word_chanR _ _ _ (clamp_le _) (clamp_le _) (clamp_le _),
      word_chanG _ _ _ (clamp_le _) (clamp_le _) (clamp_le _),
      word_chanB _ _ _ (clamp_le _) (clamp_le _) (clamp_le _)⟩
  · intro a b h1 h2 h3
    exact grayLevel_mono h2

theorem gray_axis_witness :
    ((nativeYUV420toARGB8888 [16, 100, 200, 235, 128, 128] 2 2).getD
        (0 * 2 + 1) 0 >>> 16) &&& 255 =
      grayLevel (byteAt [16, 100, 200, 235, 128, 128] (0 * 2 + 1)) :=
  (gray_axis [16, 100, 200, 235, 128, 128] 2 2
    ⟨by decide, by decide, by decide, by decide, by decide⟩
    (fun k h1 h2 => by
      have hk : k = 4 ∨ k = 5 := by
        simp only [List.length_cons, List.length_nil] at h2
        omega
      rcases hk with h | h <;> subst h <;> rfl)
    (fun k h => by
      have hk : k = 0 ∨ k = 1 ∨ k = 2 ∨ k = 3 := by omega
      rcases hk with h | h | h | h <;> subst h <;> exact ⟨by decide, by decide⟩)
    0 1 (by decide) (by decide)).1.1

end YuvToRgb
